import Mathlib

/-!
Verification of the suspicious-content detection engine and the chunk
orchestration/aggregation layer of the SpyGameMidterm repository.

The Python sources (`myFunctionProject/encoding_detector.py`,
`myFunctionProject/function_app.py`) are shallowly embedded below: page text
is `List Char`, bytes are `Nat` values below 256, Python floats arising from
suspicion scores are modelled as rational numbers, and Shannon entropy is
modelled exactly over the real numbers.  Python code that can raise an
exception is modelled with `Option` (`none` standing for the raised
exception).  Character-class helpers (`str.isalpha`, `str.isprintable`)
are modelled by their ASCII fragment.
-/

set_option maxRecDepth 100000

namespace SpyScan

/-- Shannon entropy of a string, embedding `EncodingDetector.calculate_entropy`:
count the frequency of each distinct character and sum `-p * log2 p` over the
distinct characters (`0` for the empty string). -/
noncomputable def calculate_entropy (text : List Char) : ℝ :=
  if text = [] then 0
  else ∑ c ∈ text.toFinset,
    -(((text.count c : ℝ) / (text.length : ℝ)) *
      Real.logb 2 ((text.count c : ℝ) / (text.length : ℝ)))

@[simp] theorem calculate_entropy_nil : calculate_entropy [] = 0 := by
  simp [calculate_entropy]

/-- The base-2 logarithm is concave on the positive reals. -/
theorem concaveOn_logb_two : ConcaveOn ℝ (Set.Ioi 0) (fun x => Real.logb 2 x) := by
  have h : ConcaveOn ℝ (Set.Ioi 0) Real.log := strictConcaveOn_log_Ioi.concaveOn
  have hs : ConcaveOn ℝ (Set.Ioi 0) ((Real.log 2)⁻¹ • Real.log) :=
    h.smul (inv_nonneg.mpr (Real.log_nonneg one_le_two))
  have he : (fun x => Real.logb 2 x) = (Real.log 2)⁻¹ • Real.log := by
    funext x
    simp [Real.logb, Pi.smul_apply, smul_eq_mul, div_eq_inv_mul]
  rw [he]
  exact hs

/-- Gibbs / Jensen bound: the Shannon entropy of a nonempty string is at most
the base-2 logarithm of the number of distinct characters occurring in it. -/
theorem calculate_entropy_le_logb_card (l : List Char) (hne : l ≠ []) :
    calculate_entropy l ≤ Real.logb 2 (l.toFinset.card : ℝ) := by
  have hlen : 0 < l.length := List.length_pos.mpr hne
  have hlenR : (0 : ℝ) < (l.length : ℝ) := by exact_mod_cast hlen
  set w : Char → ℝ := fun c => (l.count c : ℝ) / (l.length : ℝ) with hw
  have hwpos : ∀ c ∈ l.toFinset, 0 < w c := by
    intro c hc
    have : 0 < l.count c := List.count_pos_iff.mpr (List.mem_toFinset.mp hc)
    exact div_pos (by exact_mod_cast this) hlenR
  have hw0 : ∀ c ∈ l.toFinset, 0 ≤ w c := fun c hc => (hwpos c hc).le
  have hw1 : ∑ c ∈ l.toFinset, w c = 1 := by
    rw [hw]
    rw [← Finset.sum_div]
    rw [div_eq_one_iff_eq hlenR.ne']
    exact_mod_cast l.sum_toFinset_count_eq_length
  have hmem : ∀ c ∈ l.toFinset, (w c)⁻¹ ∈ Set.Ioi (0 : ℝ) := by
    intro c hc
    exact Set.mem_Ioi.mpr (inv_pos.mpr (hwpos c hc))
  have hjensen := concaveOn_logb_two.le_map_sum hw0 hw1 hmem
  have hsum : ∑ c ∈ l.toFinset, w c • (w c)⁻¹ = (l.toFinset.card : ℝ) := by
    have h1 : ∀ c ∈ l.toFinset, w c • (w c)⁻¹ = (1 : ℝ) := by
      intro c hc
      rw [smul_eq_mul, mul_inv_cancel₀ (hwpos c hc).ne']
    rw [Finset.sum_congr rfl h1, Finset.sum_const, nsmul_eq_mul, mul_one]
  have hent : calculate_entropy l = ∑ c ∈ l.toFinset, w c • Real.logb 2 (w c)⁻¹ := by
    rw [calculate_entropy, if_neg hne]
    refine Finset.sum_congr rfl (fun c hc => ?_)
    simp only [hw, smul_eq_mul, Real.logb_inv]
    ring
  rw [hent]
  calc ∑ c ∈ l.toFinset, w c • Real.logb 2 (w c)⁻¹
      ≤ Real.logb 2 (∑ c ∈ l.toFinset, w c • (w c)⁻¹) := hjensen
    _ = Real.logb 2 (l.toFinset.card : ℝ) := by rw [hsum]

/-- Entropy of a nonempty string is at most `log2` of its length. -/
theorem calculate_entropy_le_logb_length (l : List Char) (hne : l ≠ []) :
    calculate_entropy l ≤ Real.logb 2 (l.length : ℝ) := by
  refine le_trans (calculate_entropy_le_logb_card l hne) ?_
  have hcardpos : 0 < l.toFinset.card := by
    refine Finset.card_pos.mpr ?_
    obtain ⟨c, hc⟩ := List.exists_mem_of_ne_nil l hne
    exact ⟨c, List.mem_toFinset.mpr hc⟩
  exact Real.logb_le_logb_of_le one_lt_two (by exact_mod_cast hcardpos)
    (by exact_mod_cast l.toFinset_card_le)

/-- A string over at most the two symbols `'0'` and `'1'` has entropy at
most `1`. -/
theorem calculate_entropy_le_one_of_binary (l : List Char)
    (h : ∀ c ∈ l, c = '0' ∨ c = '1') : calculate_entropy l ≤ 1 := by
  rcases eq_or_ne l [] with rfl | hne
  · simp
  refine le_trans (calculate_entropy_le_logb_card l hne) ?_
  have hsub : l.toFinset ⊆ ({'0', '1'} : Finset Char) := by
    intro c hc
    rcases h c (List.mem_toFinset.mp hc) with h0 | h1
    · simp [h0]
    · simp [h1]
  have hcard : l.toFinset.card ≤ 2 := by
    refine le_trans (Finset.card_le_card hsub) ?_
    decide
  have hcardpos : 0 < l.toFinset.card := by
    refine Finset.card_pos.mpr ?_
    obtain ⟨c, hc⟩ := List.exists_mem_of_ne_nil l hne
    exact ⟨c, List.mem_toFinset.mpr hc⟩
  have h2 : Real.logb 2 (l.toFinset.card : ℝ) ≤ Real.logb 2 2 :=
    Real.logb_le_logb_of_le one_lt_two (by exact_mod_cast hcardpos) (by exact_mod_cast hcard)
  simpa [Real.logb_self_eq_one] using h2

/-- A duplicate-free nonempty string has entropy exactly `log2` of its
length. -/
theorem calculate_entropy_nodup (l : List Char) (hne : l ≠ []) (hd : l.Nodup) :
    calculate_entropy l = Real.logb 2 (l.length : ℝ) := by
  have hlen : 0 < l.length := List.length_pos.mpr hne
  have hlenR : (0 : ℝ) < (l.length : ℝ) := by exact_mod_cast hlen
  have hcount : ∀ c ∈ l.toFinset, l.count c = 1 := by
    intro c hc
    exact List.count_eq_one_of_mem hd (List.mem_toFinset.mp hc)
  have hcard : l.toFinset.card = l.length := List.toFinset_card_of_nodup hd
  rw [calculate_entropy, if_neg hne]
  rw [Finset.sum_congr rfl (fun c hc => by rw [hcount c hc])]
  rw [Finset.sum_const, hcard, nsmul_eq_mul]
  rw [Nat.cast_one, one_div, Real.logb_inv]
  have hne0 : (l.length : ℝ) ≠ 0 := hlenR.ne'
  field_simp

/-! ## Character classes and the readability test -/

/-- ASCII fragment of Python's `str.isalpha` (the detectors of this
repository only meet ASCII text). -/
def pyIsAlpha (c : Char) : Bool := c.isAlpha

/-- ASCII fragment of Python's `str.isprintable`. -/
def pyIsPrintable (c : Char) : Bool := 0x20 ≤ c.toNat && c.toNat ≤ 0x7E

/-- The punctuation/whitespace set of `is_readable_text`
(Python literal: space `.,;:?!-()[]`, both braces, double and single
quote). -/
def commonChars : List Char :=
  [' ', '.', ',', ';', ':', '?', '!', '-', '(', ')', '[', ']', '\x7b', '\x7d', '"', '\'']

/-- Embedding of `EncodingDetector.is_readable_text`: nonempty, at least one
letter, at least one common punctuation character, and more than 95 %
printable characters.  The ratio test `printable/len > 0.95` is stated with
the denominator cleared (`95 * len < 100 * printable`), which is equivalent
because it is only reached for nonempty text. -/
def is_readable_text (text : List Char) : Bool :=
  if text = [] then false
  else
    (text.any pyIsAlpha) && (text.any (fun c => commonChars.contains c)) &&
      decide (95 * text.length < 100 * text.countP pyIsPrintable)

/-! ## Findings -/

/-- A finding, i.e. one of the dictionaries appended to the `findings` list
by the detectors.  Keys that only some finding kinds carry are `Option`
fields. -/
structure Finding where
  type : String
  content : List Char
  sample_decoded : Option (List Char)
  entropy : Option ℝ
  confidence : ℝ
  block_index : Option Nat

/-- The 50-character truncation applied by the source to decoded samples and
block excerpts: `s[:50] + ('...' if len(s) > 50 else '')`. -/
def truncate50 (s : List Char) : List Char :=
  s.take 50 ++ (if 50 < s.length then ['.', '.', '.'] else [])

/-! ## Bytes, bits and codecs -/

/-- `format(byte, '08b')`: the 8-bit binary expansion of a byte, most
significant bit first. -/
def byteBits (b : Nat) : List Char :=
  (List.range 8).map (fun i => if b.testBit (7 - i) then '1' else '0')

/-- `''.join(format(byte, '08b') for byte in decoded)`. -/
def bitString (bs : List Nat) : List Char := (bs.map byteBits).flatten

/-- The standard Base64 alphabet. -/
def b64Alphabet : List Char :=
  "ABCDEFGHIJKLMNOPQRSTUVWXYZabcdefghijklmnopqrstuvwxyz0123456789+/".toList

def toB64Char (i : Nat) : Char := b64Alphabet.getD i 'A'

def fromB64Char (c : Char) : Option Nat := b64Alphabet.findIdx? (fun d => d == c)

/-- The character class of the compiled `base64` pattern `[A-Za-z0-9+/]`. -/
def isB64Char (c : Char) : Bool := c.isAlphanum || c == '+' || c == '/'

/-- Model of Python's `base64.b64decode` on the padded candidates the
detector produces: the input is consumed in groups of four characters; a
group ending in padding finishes the decode (later characters are ignored,
as in CPython's lenient `binascii.a2b_base64`); a group with exactly one
data character, a non-alphabet character, or a leftover group of fewer than
four characters is an error (`none`, modelling the raised exception). -/
def b64decode : List Char → Option (List Nat)
  | [] => some []
  | c :: cs =>
    if c = '=' then some []
    else
      match cs with
      | c2 :: c3 :: c4 :: rest2 =>
        match fromB64Char c, fromB64Char c2 with
        | some x1, some x2 =>
          if c3 = '=' then
            if c4 = '=' then some [x1 * 4 + x2 / 16] else none
          else
            match fromB64Char c3 with
            | some x3 =>
              if c4 = '=' then some [x1 * 4 + x2 / 16, x2 % 16 * 16 + x3 / 4]
              else
                match fromB64Char c4, b64decode rest2 with
                | some x4, some bsr =>
                  some ((x1 * 4 + x2 / 16) :: (x2 % 16 * 16 + x3 / 4) ::
                    (x3 % 4 * 64 + x4) :: bsr)
                | _, _ => none
            | none => none
        | _, _ => none
      | _ => none

/-- Model of Python's `base64.b64encode` over byte values. -/
def b64encode : List Nat → List Char
  | [] => []
  | [b1] => [toB64Char (b1 / 4), toB64Char (b1 % 4 * 16), '=', '=']
  | [b1, b2] => [toB64Char (b1 / 4), toB64Char (b1 % 4 * 16 + b2 / 16), toB64Char (b2 % 16 * 4), '=']
  | b1 :: b2 :: b3 :: rest =>
    toB64Char (b1 / 4) :: toB64Char (b1 % 4 * 16 + b2 / 16) ::
      toB64Char (b2 % 16 * 4 + b3 / 64) :: toB64Char (b3 % 64) :: b64encode rest

/-- `encoded.rstrip('=')`. -/
def stripTrailingEq (l : List Char) : List Char :=
  (l.reverse.dropWhile (fun c => c == '=')).reverse

/-- The padding step of `detect_base64`:
`padding = 4 - (len(encoded) % 4) if len(encoded) % 4 else 0`. -/
def padB64 (cand : List Char) : List Char :=
  cand ++ List.replicate ((4 - cand.length % 4) % 4) '='

/-- The lowercase hexadecimal digits (Python's `bytes.hex`). -/
def hexDigits : List Char := "0123456789abcdef".toList

def toHexChar (i : Nat) : Char := hexDigits.getD i '0'

/-- Value of one hexadecimal digit, upper or lower case. -/
def fromHexChar (c : Char) : Option Nat :=
  if '0' ≤ c ∧ c ≤ '9' then some (c.toNat - 48)
  else if 'a' ≤ c ∧ c ≤ 'f' then some (c.toNat - 87)
  else if 'A' ≤ c ∧ c ≤ 'F' then some (c.toNat - 55)
  else none

/-- The character class of the compiled `hex` pattern `[0-9A-Fa-f]`. -/
def isHexChar (c : Char) : Bool := (fromHexChar c).isSome

/-- Model of Python's `bytes.fromhex`: pairs of hexadecimal digits; an odd
length or a non-digit raises (`none`). -/
def hexDecode : List Char → Option (List Nat)
  | [] => some []
  | [_] => none
  | c1 :: c2 :: rest =>
    match fromHexChar c1, fromHexChar c2, hexDecode rest with
    | some h, some lo, some bs => some ((h * 16 + lo) :: bs)
    | _, _, _ => none

/-- Model of Python's `bytes.hex`: two lowercase digits per byte. -/
def hexEncode (bs : List Nat) : List Char :=
  (bs.map (fun b => [toHexChar (b / 16), toHexChar (b % 16)])).flatten

/-- Is a byte a UTF-8 continuation byte (`0b10xxxxxx`)? -/
def isCont (b : Nat) : Bool := 0x80 ≤ b && b < 0xC0

/-- Strict UTF-8 decoder over byte values, modelling `bytes.decode('utf-8')`:
rejects continuation-byte errors, overlong encodings, surrogates and
code points above `U+10FFFF` (`none` models `UnicodeDecodeError`). -/
def utf8decodeAux : List Nat → List Char → Option (List Char)
  | [], acc => some acc.reverse
  | b :: rest, acc =>
    if b < 0x80 then utf8decodeAux rest (Char.ofNat b :: acc)
    else if b < 0xC2 then none
    else if b < 0xE0 then
      match rest with
      | b2 :: r2 =>
        if isCont b2 then
          utf8decodeAux r2 (Char.ofNat ((b - 0xC0) * 0x40 + (b2 - 0x80)) :: acc)
        else none
      | _ => none
    else if b < 0xF0 then
      match rest with
      | b2 :: b3 :: r3 =>
        if isCont b2 && isCont b3 && (b != 0xE0 || 0xA0 ≤ b2) && (b != 0xED || b2 < 0xA0) then
          utf8decodeAux r3
            (Char.ofNat ((b - 0xE0) * 0x1000 + (b2 - 0x80) * 0x40 + (b3 - 0x80)) :: acc)
        else none
      | _ => none
    else if b < 0xF5 then
      match rest with
      | b2 :: b3 :: b4 :: r4 =>
        if isCont b2 && isCont b3 && isCont b4 &&
            (b != 0xF0 || 0x90 ≤ b2) && (b != 0xF4 || b2 < 0x90) then
          utf8decodeAux r4
            (Char.ofNat ((b - 0xF0) * 0x40000 + (b2 - 0x80) * 0x1000 +
              (b3 - 0x80) * 0x40 + (b4 - 0x80)) :: acc)
        else none
      | _ => none
    else none

def utf8decode (bs : List Nat) : Option (List Char) := utf8decodeAux bs []

/-! ## Candidate extraction (the compiled regular expressions)

`re.finditer` scans left to right and, for the patterns of this source,
returns maximal non-overlapping matches.  For `[A-Za-z0-9+/]{16,}={0,3}`
a match is a maximal alphabet run of length at least 16 followed by up to
three `=` signs; shorter runs contain no match at any offset. -/

/-- Matches of the `base64` pattern `[A-Za-z0-9+/]{16,}={0,3}` in scan
order. -/
def b64Candidates : List Char → List (List Char)
  | [] => []
  | c :: cs =>
    if hB : isB64Char c then
      let run := (c :: cs).takeWhile isB64Char
      let rest := (c :: cs).dropWhile isB64Char
      if 16 ≤ run.length then
        let pads := (rest.takeWhile (fun d => d == '=')).take 3
        (run ++ pads) :: b64Candidates (rest.drop pads.length)
      else b64Candidates rest
    else b64Candidates cs
termination_by l => l.length
decreasing_by
  · have h1 : ((c :: cs).dropWhile isB64Char).length ≤ cs.length := by
      rw [List.dropWhile_cons_of_pos hB]
      exact (List.dropWhile_sublist isB64Char).length_le
    simp only [List.length_drop, List.length_cons]
    omega
  · have h1 : ((c :: cs).dropWhile isB64Char).length ≤ cs.length := by
      rw [List.dropWhile_cons_of_pos hB]
      exact (List.dropWhile_sublist isB64Char).length_le
    simp only [List.length_cons]
    omega
  · simp

/-- Matches of the `hex` pattern `[0-9A-Fa-f]{16,}` in scan order. -/
def hexCandidates : List Char → List (List Char)
  | [] => []
  | c :: cs =>
    if hH : isHexChar c then
      let run := (c :: cs).takeWhile isHexChar
      let rest := (c :: cs).dropWhile isHexChar
      if 16 ≤ run.length then run :: hexCandidates rest
      else hexCandidates rest
    else hexCandidates cs
termination_by l => l.length
decreasing_by
  · have h1 : ((c :: cs).dropWhile isHexChar).length ≤ cs.length := by
      rw [List.dropWhile_cons_of_pos hH]
      exact (List.dropWhile_sublist isHexChar).length_le
    simp only [List.length_cons]
    omega
  · simp

/-- Greedy parse of a maximal run of `%XX` triples (hex digits), returning
the number of triples and the remaining input. -/
def parsePercentRun : List Char → Nat × List Char
  | '%' :: h1 :: h2 :: rest =>
    if isHexChar h1 && isHexChar h2 then
      ((parsePercentRun rest).1 + 1, (parsePercentRun rest).2)
    else (0, '%' :: h1 :: h2 :: rest)
  | l => (0, l)

theorem parsePercentRun_length (l : List Char) :
    (parsePercentRun l).2.length + 3 * (parsePercentRun l).1 = l.length := by
  induction l using parsePercentRun.induct with
  | case1 h1 h2 rest hhex ih =>
    rw [parsePercentRun, if_pos hhex]
    simp only [List.length_cons]
    omega
  | case2 h1 h2 rest hhex =>
    rw [parsePercentRun, if_neg hhex]
    simp
  | case3 l hl =>
    conv_lhs => rw [parsePercentRun.eq_def]
    split
    · simp_all
    · simp

/-- Matches of the `url` pattern `(?:%[0-9A-Fa-f]{2}){3,}` in scan order:
maximal runs of at least three `%XX` triples. -/
def urlCandidates : List Char → List (List Char)
  | [] => []
  | c :: cs =>
    if 3 ≤ (parsePercentRun (c :: cs)).1 then
      ((c :: cs).take (3 * (parsePercentRun (c :: cs)).1)) ::
        urlCandidates (parsePercentRun (c :: cs)).2
    else urlCandidates cs
termination_by l => l.length
decreasing_by
  · have h1 := parsePercentRun_length (c :: cs)
    simp only [List.length_cons] at h1 ⊢
    omega
  · simp

/-! ## The four detectors -/

/-- The body of the `detect_base64` candidate loop for one regex match. -/
noncomputable def processB64Candidate (encoded : List Char) : List Finding :=
  if (stripTrailingEq encoded).length < 16 then []
  else
    match b64decode (padB64 encoded) with
    | none => []
    | some decoded =>
      match utf8decode decoded with
      | some decoded_text =>
        if is_readable_text decoded_text then
          [⟨"base64", encoded, some (truncate50 decoded_text), none, 0.9, none⟩]
        else []
      | none =>
        if 7 < calculate_entropy (bitString decoded) then
          [⟨"base64_binary", encoded, none, some (calculate_entropy (bitString decoded)),
            0.7, none⟩]
        else []

/-- Embedding of `EncodingDetector.detect_base64`. -/
noncomputable def detect_base64 (text : List Char) : List Finding :=
  ((b64Candidates text).map processB64Candidate).flatten

/-- The body of the `detect_hex` candidate loop for one regex match: odd
lengths are skipped before decoding. -/
noncomputable def processHexCandidate (encoded : List Char) : List Finding :=
  if encoded.length % 2 ≠ 0 then []
  else
    match hexDecode encoded with
    | none => []
    | some decoded =>
      match utf8decode decoded with
      | some decoded_text =>
        if is_readable_text decoded_text then
          [⟨"hexadecimal", encoded, some (truncate50 decoded_text), none, 0.85, none⟩]
        else []
      | none =>
        if 7 < calculate_entropy (bitString decoded) then
          [⟨"hex_binary", encoded, none, some (calculate_entropy (bitString decoded)),
            0.6, none⟩]
        else []

/-- Embedding of `EncodingDetector.detect_hex`. -/
noncomputable def detect_hex (text : List Char) : List Finding :=
  ((hexCandidates text).map processHexCandidate).flatten

/-- The body of the `detect_url_encoding` candidate loop: strip the `%`
signs, hex-decode, and only report readable UTF-8 results. -/
def processUrlCandidate (encoded : List Char) : List Finding :=
  match hexDecode (encoded.filter (fun c => c != '%')) with
  | none => []
  | some decoded =>
    match utf8decode decoded with
    | some decoded_text =>
      if is_readable_text decoded_text then
        [⟨"url_encoding", encoded, some (truncate50 decoded_text), none, 0.8, none⟩]
      else []
    | none => []

/-- Embedding of `EncodingDetector.detect_url_encoding`. -/
def detect_url_encoding (text : List Char) : List Finding :=
  ((urlCandidates text).map processUrlCandidate).flatten

/-- `[text[i:i+block_size] for i in range(0, len(text), block_size)]`
(for a positive block size). -/
def pyblocks (text : List Char) (block_size : Nat) : List (List Char) :=
  (List.range ((text.length + block_size - 1) / block_size)).map
    (fun i => (text.drop (i * block_size)).take block_size)

/-- Embedding of `EncodingDetector.detect_high_entropy`: skip texts shorter
than half the block size, split into blocks, skip blocks shorter than half
the block size, and report blocks of entropy strictly above `7.0` with
confidence `min(0.5 + (entropy - 7.0) / 2.0, 0.95)`. -/
noncomputable def detect_high_entropy (text : List Char) (block_size : Nat) : List Finding :=
  if 2 * text.length < block_size then []
  else
    (pyblocks text block_size).enum.filterMap (fun ib =>
      if 2 * ib.2.length < block_size then none
      else if 7 < calculate_entropy ib.2 then
        some ⟨"high_entropy", truncate50 ib.2, none, some (calculate_entropy ib.2),
          min (0.5 + (calculate_entropy ib.2 - 7) / 2) 0.95, some ib.1⟩
      else none)

/-! ## Page-level scoring -/

/-- Result dictionary of `detect_encodings`. -/
structure DetectResult where
  findings : List Finding
  suspicious : Bool
  suspicion_score : ℚ
  suspicion_reasons : List String

/-- Python's `round(x, 2)` over the rational model (Python's float
round-half-to-even is modelled by the rational round-half-up; no threshold
in the source lands on a half). -/
def roundQ2 (q : ℚ) : ℚ := ((round (q * 100) : ℤ) : ℚ) / 100

/-- Embedding of `EncodingDetector.detect_encodings`.  The four reason
strings are modelled without their interpolated numeric suffixes. -/
noncomputable def detect_encodings (text : List Char) : DetectResult :=
  if text = [] ∨ text.length < 16 then ⟨[], false, 0, []⟩
  else
    let base64_findings := detect_base64 text
    let hex_findings := detect_hex text
    let url_findings := detect_url_encoding text
    let entropy_findings := detect_high_entropy text 100
    let findings := base64_findings ++ hex_findings ++ url_findings ++ entropy_findings
    let pattern_density : ℚ := (findings.length : ℚ) / ((text.length : ℚ) / 1000)
    let s1 : ℚ := if 1/2 < pattern_density then pattern_density else 0
    let r1 : List String := if 1/2 < pattern_density then ["High pattern density"] else []
    let high_confidence_patterns :=
      (findings.filter (fun f => decide ((0.8 : ℝ) < f.confidence))).length
    let s2 : ℚ := if 3 ≤ high_confidence_patterns then (high_confidence_patterns : ℚ) / 2 else 0
    let r2 : List String :=
      if 3 ≤ high_confidence_patterns then ["Multiple high-confidence patterns"] else []
    let high_entropy_blocks :=
      (entropy_findings.filter (fun f => decide ((7.5 : ℝ) < f.entropy.getD 0))).length
    let s3 : ℚ := if 0 < high_entropy_blocks then (high_entropy_blocks : ℚ) else 0
    let r3 : List String := if 0 < high_entropy_blocks then ["High entropy blocks found"] else []
    let base64_patterns := base64_findings.length
    let s4 : ℚ := if 2 < base64_patterns then (base64_patterns : ℚ) * (7/10) else 0
    let r4 : List String := if 2 < base64_patterns then ["Multiple Base64 patterns"] else []
    let suspicion_score := s1 + s2 + s3 + s4
    let sorted_findings := findings.mergeSort (fun a b => decide (b.confidence ≤ a.confidence))
    ⟨sorted_findings, decide (5 < suspicion_score), roundQ2 suspicion_score,
      if 5 < suspicion_score then r1 ++ r2 ++ r3 ++ r4 else []⟩

/-! ## Claim C1: the default-block-size high-entropy detector is vacuous -/

theorem logb_two_100_lt_seven : Real.logb 2 (100 : ℝ) < 7 := by
  have h1 : Real.logb 2 (100 : ℝ) < Real.logb 2 (128 : ℝ) :=
    Real.logb_lt_logb one_lt_two (by norm_num) (by norm_num)
  have h2 : Real.logb 2 (128 : ℝ) = 7 := by
    rw [show (128 : ℝ) = 2 ^ (7 : ℕ) by norm_num, Real.logb_pow]
    simp [Real.logb_self_eq_one one_lt_two]
  linarith

theorem pyblocks_length_le (text : List Char) (bs : Nat) :
    ∀ b ∈ pyblocks text bs, b.length ≤ bs := by
  intro b hb
  rw [pyblocks] at hb
  obtain ⟨i, _, rfl⟩ := List.mem_map.mp hb
  simp [List.length_take]

/-- C1: with the default block size 100 every block has at most 100 distinct
characters, hence entropy at most `log2 100 < 7`, so the strict threshold
`entropy > 7.0` never fires and `detect_high_entropy(text, 100)` is always
empty — no `high_entropy` finding can exist under the default
configuration. -/
theorem detect_high_entropy_default_empty (text : List Char) :
    detect_high_entropy text 100 = [] := by
  rw [detect_high_entropy]
  split
  · rfl
  · rw [List.filterMap_eq_nil_iff]
    intro ib hib
    have hmem : ib.2 ∈ pyblocks text 100 := by
      have hget := List.mem_enum_iff_getElem?.mp hib
      exact List.getElem?_mem hget
    have hlen : ib.2.length ≤ 100 := pyblocks_length_le text 100 ib.2 hmem
    by_cases hshort : 2 * ib.2.length < 100
    · simp [hshort]
    · have hpos : 0 < ib.2.length := by omega
      have hne : ib.2 ≠ [] := List.length_pos.mp hpos
      have hent : calculate_entropy ib.2 ≤ Real.logb 2 (ib.2.length : ℝ) :=
        calculate_entropy_le_logb_length ib.2 hne
      have hmono : Real.logb 2 (ib.2.length : ℝ) ≤ Real.logb 2 (100 : ℝ) :=
        Real.logb_le_logb_of_le one_lt_two (by exact_mod_cast hpos) (by exact_mod_cast hlen)
      have hlt : calculate_entropy ib.2 < 7 :=
        lt_of_le_of_lt (le_trans hent hmono) logb_two_100_lt_seven
      simp [hshort, not_lt.mpr hlt.le]

/-! ## Claim C2: the binary branches of the Base64 and hex detectors are
vacuous -/

theorem bitString_binary (bs : List Nat) : ∀ c ∈ bitString bs, c = '0' ∨ c = '1' := by
  intro c hc
  rcases List.mem_flatten.mp hc with ⟨l, hl, hcl⟩
  rcases List.mem_map.mp hl with ⟨b, _, rfl⟩
  rcases List.mem_map.mp hcl with ⟨i, _, rfl⟩
  by_cases h : b.testBit (7 - i) <;> simp [byteBits, h]

/-- The bit-expansion string of any byte sequence has entropy at most 1. -/
theorem bitString_entropy_le_one (bs : List Nat) :
    calculate_entropy (bitString bs) ≤ 1 :=
  calculate_entropy_le_one_of_binary (bitString bs) (bitString_binary bs)

theorem processB64Candidate_type (cand : List Char) :
    ∀ f ∈ processB64Candidate cand, f.type = "base64" := by
  intro f hf
  rw [processB64Candidate] at hf
  split at hf
  · simp at hf
  · split at hf
    · simp at hf
    · split at hf
      · split at hf
        · rcases List.mem_singleton.mp hf with rfl
          rfl
        · simp at hf
      · rw [if_neg (not_lt.mpr (le_trans (bitString_entropy_le_one _) (by norm_num)))] at hf
        simp at hf

theorem processHexCandidate_type (cand : List Char) :
    ∀ f ∈ processHexCandidate cand, f.type = "hexadecimal" := by
  intro f hf
  rw [processHexCandidate] at hf
  split at hf
  · simp at hf
  · split at hf
    · simp at hf
    · split at hf
      · split at hf
        · rcases List.mem_singleton.mp hf with rfl
          rfl
        · simp at hf
      · rw [if_neg (not_lt.mpr (le_trans (bitString_entropy_le_one _) (by norm_num)))] at hf
        simp at hf

/-- C2: for every input text, `detect_base64` never emits a finding of kind
`base64_binary` and `detect_hex` never emits a finding of kind
`hex_binary`: in the non-UTF-8 branch the entropy is taken over the
two-symbol bit expansion of the decoded bytes, and that entropy is at most
1, never above 7. -/
theorem detectors_never_emit_binary_findings (text : List Char) :
    (detect_base64 text).filter (fun f => f.type == "base64_binary") = [] ∧
    (detect_hex text).filter (fun f => f.type == "hex_binary") = [] := by
  constructor
  · rw [List.filter_eq_nil_iff]
    intro f hf
    rw [detect_base64] at hf
    rcases List.mem_flatten.mp hf with ⟨l, hl, hfl⟩
    rcases List.mem_map.mp hl with ⟨cand, _, rfl⟩
    have := processB64Candidate_type cand f hfl
    simp [this]
  · rw [List.filter_eq_nil_iff]
    intro f hf
    rw [detect_hex] at hf
    rcases List.mem_flatten.mp hf with ⟨l, hl, hfl⟩
    rcases List.mem_map.mp hl with ⟨cand, _, rfl⟩
    have := processHexCandidate_type cand f hfl
    simp [this]

/-! ## Claim C7: the short-text short circuit of `detect_encodings` -/

/-- C7: a page text of fewer than 16 characters (the configured
`min_length`) short-circuits `detect_encodings` to the empty,
non-suspicious result with score `0.0` and no reasons, whatever the
content. -/
theorem detect_encodings_short_circuit (text : List Char) (h : text.length < 16) :
    detect_encodings text = ⟨[], false, 0, []⟩ := by
  rw [detect_encodings, if_pos (Or.inr h)]

theorem detect_encodings_short_circuit_witness :
    ("hello!".toList.length < 16) ∧ detect_encodings "hello!".toList = ⟨[], false, 0, []⟩ :=
  ⟨by decide, detect_encodings_short_circuit _ (by decide)⟩

/-! ## Claim C9: confidence scaling of the high-entropy detector -/

/-- 128 pairwise-distinct characters: one block of entropy exactly 7. -/
def text128 : List Char := (List.range 128).map Char.ofNat

/-- 256 pairwise-distinct characters: one block of entropy exactly 8. -/
def text256 : List Char := (List.range 256).map Char.ofNat

theorem text128_entropy : calculate_entropy text128 = 7 := by
  have hnd : text128.Nodup := by decide
  have hne : text128 ≠ [] := by decide
  have hlen : text128.length = 128 := by decide
  rw [calculate_entropy_nodup _ hne hnd, hlen]
  rw [show ((128 : ℕ) : ℝ) = 2 ^ (7 : ℕ) by norm_num, Real.logb_pow]
  simp [Real.logb_self_eq_one one_lt_two]

theorem text256_entropy : calculate_entropy text256 = 8 := by
  have hnd : text256.Nodup := by decide
  have hne : text256 ≠ [] := by decide
  have hlen : text256.length = 256 := by decide
  rw [calculate_entropy_nodup _ hne hnd, hlen]
  rw [show ((256 : ℕ) : ℝ) = 2 ^ (8 : ℕ) by norm_num, Real.logb_pow]
  simp [Real.logb_self_eq_one one_lt_two]

/-- C9 counterexample: a block whose Shannon entropy is exactly `7.0` is
NOT reported (the source threshold `entropy > 7.0` is strict), so no
finding with confidence `0.5` exists for it. -/
theorem high_entropy_exact_seven_no_finding :
    calculate_entropy text128 = 7 ∧ detect_high_entropy text128 128 = [] := by
  refine ⟨text128_entropy, ?_⟩
  rw [detect_high_entropy, if_neg (by decide : ¬ 2 * text128.length < 128)]
  rw [show pyblocks text128 128 = [text128] from by decide]
  simp only [List.enum, List.enumFrom, List.filterMap_cons, List.filterMap_nil]
  rw [if_neg (by decide : ¬ 2 * text128.length < 128)]
  rw [if_neg (by rw [text128_entropy]; norm_num : ¬ (7 : ℝ) < calculate_entropy text128)]

/-- C9 (amended): every finding emitted by the high-entropy-block detector
has entropy strictly above `7.0` (a block at exactly `7.0` is skipped), and
its confidence is `min(0.5 + (entropy - 7.0)/2.0, 0.95)`; in particular at
entropy `8.0` the confidence is the cap `0.95`. -/
theorem detect_high_entropy_confidence (text : List Char) (bs : Nat) (f : Finding)
    (hf : f ∈ detect_high_entropy text bs) :
    ∃ e : ℝ, f.entropy = some e ∧ 7 < e ∧
      f.confidence = min (0.5 + (e - 7) / 2) 0.95 ∧ (e = 8 → f.confidence = 0.95) := by
  rw [detect_high_entropy] at hf
  split at hf
  · simp at hf
  · rcases List.mem_filterMap.mp hf with ⟨ib, _, heq⟩
    split at heq
    · simp at heq
    · split at heq
      · rename_i hgt
        injection heq with heq
        subst heq
        refine ⟨calculate_entropy ib.2, rfl, hgt, rfl, ?_⟩
        intro h8
        show min (0.5 + (calculate_entropy ib.2 - 7) / 2) 0.95 = 0.95
        rw [h8]
        norm_num
      · simp at heq

theorem detect_high_entropy_confidence_witness :
    (⟨"high_entropy", truncate50 text256, none, some 8, 0.95, some 0⟩ : Finding) ∈
        detect_high_entropy text256 256 ∧
      ∃ e : ℝ,
        (⟨"high_entropy", truncate50 text256, none, some 8, 0.95, some 0⟩ : Finding).entropy
            = some e ∧
          7 < e ∧
          (⟨"high_entropy", truncate50 text256, none, some 8, 0.95, some 0⟩ : Finding).confidence
              = min (0.5 + (e - 7) / 2) 0.95 ∧
          (e = 8 →
            (⟨"high_entropy", truncate50 text256, none, some 8, 0.95, some 0⟩ : Finding).confidence
              = 0.95) := by
  have hone : detect_high_entropy text256 256 =
      [⟨"high_entropy", truncate50 text256, none, some 8, 0.95, some 0⟩] := by
    rw [detect_high_entropy, if_neg (by decide : ¬ 2 * text256.length < 256)]
    rw [show pyblocks text256 256 = [text256] from by decide]
    simp only [List.enum, List.enumFrom, List.filterMap_cons, List.filterMap_nil]
    rw [if_neg (by decide : ¬ 2 * text256.length < 256)]
    rw [if_pos (by rw [text256_entropy]; norm_num : (7 : ℝ) < calculate_entropy text256)]
    rw [text256_entropy]
    norm_num
  have hm : (⟨"high_entropy", truncate50 text256, none, some 8, 0.95, some 0⟩ : Finding) ∈
      detect_high_entropy text256 256 := by
    rw [hone]
    exact List.mem_singleton.mpr rfl
  exact ⟨hm, detect_high_entropy_confidence text256 256 _ hm⟩

/-! ## Orchestrator chunking (`orchestrator_function` in `function_app.py`) -/

/-- Model of Python's `range(0, stop, step)` as used by the orchestrator
(`stop` is the nonnegative page count): a zero step raises `ValueError`
(`none`); a negative step yields the empty range; a positive step yields
`0, step, 2*step, ...` below `stop`. -/
def pyRangeFromZero (stop : Nat) (step : Int) : Option (List Int) :=
  if step = 0 then none
  else if step < 0 then some []
  else some ((List.range ((stop + step.toNat - 1) / step.toNat)).map
    (fun k : ℕ => (k : Int) * step))

/-- The orchestrator's chunk-list computation:
`chunk_size = req_body.get('chunk_size', 5)` (the argument is `none` when
the key is missing) followed by
`chunks = [(i, min(i + chunk_size, total_pages)) for i in range(0, total_pages, chunk_size)]`.
`none` models the orchestration aborting with an error. -/
def orchestrator_chunks (chunk_size : Option Int) (total_pages : Nat) :
    Option (List (Int × Int)) :=
  let cs := chunk_size.getD 5
  (pyRangeFromZero total_pages cs).map
    (fun l => l.map (fun i => (i, min (i + cs) (total_pages : Int))))

theorem chunk_arith (tp n : Nat) (hn : 1 ≤ n) :
    tp ≤ n * ((tp + n - 1) / n) ∧ n * ((tp + n - 1) / n) < tp + n := by
  have hdm := Nat.div_add_mod (tp + n - 1) n
  have hrlt := Nat.mod_lt (tp + n - 1) (show 0 < n by omega)
  set q := (tp + n - 1) / n with hq
  set r := (tp + n - 1) % n with hrr
  obtain ⟨m, hm⟩ : ∃ m, n * q = m := ⟨_, rfl⟩
  rw [hm] at hdm ⊢
  omega

theorem orchestrator_chunks_pos (tp : Nat) (cs : Int) (hcs : 1 ≤ cs) :
    orchestrator_chunks (some cs) tp =
      some ((List.range ((tp + cs.toNat - 1) / cs.toNat)).map
        (fun k : ℕ => ((k : Int) * cs, min ((k : Int) * cs + cs) (tp : Int)))) := by
  rw [orchestrator_chunks]
  simp only [Option.getD_some]
  rw [pyRangeFromZero, if_neg (by omega : ¬ cs = 0), if_neg (by omega : ¬ cs < 0)]
  simp [List.map_map, Function.comp_def]


/-- The chunk list `[(i, min(i + cs, tp)) for i in range(0, tp, cs)]`,
written with the range index `k` (`i = k * cs`) and an abstract range
length `N`. -/
def chunkList (tp N : Nat) (cs : Int) : List (Int × Int) :=
  (List.range N).map (fun k : ℕ => ((k : Int) * cs, min ((k : Int) * cs + cs) (tp : Int)))

theorem orchestrator_chunks_eq_chunkList (tp : Nat) (cs : Int) (hcs : 1 ≤ cs) :
    orchestrator_chunks (some cs) tp =
      some (chunkList tp ((tp + cs.toNat - 1) / cs.toNat) cs) := by
  rw [orchestrator_chunks_pos tp cs hcs, chunkList]

/-- The chunk list over an abstract range count `N` with
`tp ≤ N * n < tp + n` satisfies all the partition properties. -/
theorem chunk_list_spec (tp n N : Nat) (hn1 : 1 ≤ n)
    (hub : tp ≤ N * n) (hlb : N * n < tp + n) (cs : Int) (hcsn : (n : Int) = cs) :
    (∀ p ∈ chunkList tp N cs, p.1 < p.2 ∧ p.2 ≤ (tp : Int)) ∧
    (∀ i : Nat, ∀ p q : Int × Int, (chunkList tp N cs)[i]? = some p →
      (chunkList tp N cs)[i + 1]? = some q → p.2 = q.1 ∧ p.2 - p.1 = cs) ∧
    List.Pairwise (fun p q => p.2 ≤ q.1) (chunkList tp N cs) ∧
    (∀ x : Int, 0 ≤ x → x < (tp : Int) → ∃ p ∈ chunkList tp N cs, p.1 ≤ x ∧ x < p.2) ∧
    (tp = 0 → chunkList tp N cs = []) ∧
    (0 < tp → (chunkList tp N cs)[0]?.map Prod.fst = some 0 ∧
      (chunkList tp N cs)[(chunkList tp N cs).length - 1]?.map Prod.snd = some (tp : Int)) := by
  set f : Nat → Int × Int :=
    fun k => ((k : Int) * cs, min ((k : Int) * cs + cs) (tp : Int)) with hf
  have hCL : chunkList tp N cs = (List.range N).map f := rfl
  have hNn1 : 0 < N → (N - 1) * n + n = N * n := by
    intro h1
    have h2 : N - 1 + 1 = N := by omega
    calc (N - 1) * n + n = (N - 1 + 1) * n := by ring
      _ = N * n := by rw [h2]
  have hcast : ∀ a b : ℕ, a ≤ b → ((a : ℤ) ≤ (b : ℤ)) := fun a b h => by exact_mod_cast h
  rw [hCL]
  refine ⟨?_, ?_, ?_, ?_, ?_, ?_⟩
  · -- bounds
    intro p hp
    rcases List.mem_map.mp hp with ⟨k, hk, rfl⟩
    have hkN : k < N := List.mem_range.mp hk
    have hkn : (k + 1) * n ≤ N * n := Nat.mul_le_mul_right n (by omega)
    have hexp : (k + 1) * n = k * n + n := by ring
    have hktp : k * n < tp := by omega
    constructor
    · have h4 : ((k : Int) * cs) < tp := by
        rw [← hcsn]
        exact_mod_cast hktp
      simp only [hf, lt_min_iff]
      exact ⟨by omega, h4⟩
    · exact min_le_right _ _
  · -- contiguity and size of non-final ranges
    intro i p q hp hq
    have hi1 : i + 1 < N := by
      by_contra hcon
      rw [List.getElem?_eq_none (by simpa using by omega :
        ((List.range N).map f).length ≤ i + 1)] at hq
      exact absurd hq (by simp)
    have hi : i < N := by omega
    rw [List.getElem?_map, List.getElem?_range hi] at hp
    rw [List.getElem?_map, List.getElem?_range hi1] at hq
    simp only [Option.map_some'] at hp hq
    injection hp with hp
    injection hq with hq
    have hsize : (i + 1) * n ≤ (N - 1) * n := Nat.mul_le_mul_right n (by omega)
    have h3 := hNn1 (by omega)
    have hNtp : (N - 1) * n < tp := by omega
    have hexp : (i + 1) * n = i * n + n := by ring
    have hitp : i * n + n ≤ tp := by omega
    have hmin : min ((i : Int) * cs + cs) (tp : Int) = (i : Int) * cs + cs := by
      rw [min_eq_left]
      rw [← hcsn]
      have h5 := hcast _ _ hitp
      push_cast at h5
      omega
    subst hp
    subst hq
    simp only [hf, hmin]
    constructor
    · push_cast
      ring
    · omega
  · -- pairwise disjoint ascending
    rw [List.pairwise_map]
    refine List.Pairwise.imp ?_ (List.pairwise_lt_range N)
    intro a b hab
    simp only [hf]
    refine le_trans (min_le_left _ _) ?_
    have h1 : (a + 1) * n ≤ b * n := Nat.mul_le_mul_right n (by omega)
    have hexp : (a + 1) * n = a * n + n := by ring
    rw [← hcsn]
    have h2 := hcast _ _ (show a * n + n ≤ b * n by omega)
    push_cast at h2
    omega
  · -- coverage
    intro x hx0 hxtp
    have hxn : x.toNat < tp := by omega
    have hn0 : 0 < n := by omega
    have hkN : x.toNat / n < N := by
      rw [Nat.div_lt_iff_lt_mul hn0]
      omega
    refine ⟨f (x.toNat / n), List.mem_map_of_mem f (List.mem_range.mpr hkN), ?_, ?_⟩
    · simp only [hf]
      have h1 : x.toNat / n * n ≤ x.toNat := Nat.div_mul_le_self x.toNat n
      rw [← hcsn]
      have h2 := hcast _ _ h1
      push_cast at h2
      omega
    · simp only [hf, lt_min_iff]
      refine ⟨?_, by omega⟩
      have h1 : x.toNat < (x.toNat / n + 1) * n :=
        (Nat.div_lt_iff_lt_mul hn0).mp (Nat.lt_succ_self _)
      have hexp : (x.toNat / n + 1) * n = x.toNat / n * n + n := by ring
      rw [← hcsn]
      have h2 : (x.toNat : Int) < ((x.toNat / n * n + n : ℕ) : Int) := by
        exact_mod_cast by omega
      push_cast at h2
      omega
  · -- empty document
    intro htp
    subst htp
    have h0 : N = 0 := by
      by_contra hcon
      have h1 : 1 * n ≤ N * n := Nat.mul_le_mul_right n (by omega)
      omega
    rw [h0]
    rfl
  · -- first start and last end
    intro htp
    have hN0 : 0 < N := by
      rcases Nat.eq_zero_or_pos N with h0 | h1
      · rw [h0, Nat.zero_mul] at hub
        omega
      · exact h1
    constructor
    · rw [List.getElem?_map, List.getElem?_range hN0]
      simp [hf]
    · have hlen : ((List.range N).map f).length = N := by simp
      rw [hlen, List.getElem?_map, List.getElem?_range (by omega : N - 1 < N)]
      simp only [Option.map_some']
      have h1 := hNn1 hN0
      have h2 : tp ≤ (N - 1) * n + n := by omega
      have hmin : min (((N - 1 : ℕ) : Int) * cs + cs) (tp : Int) = (tp : Int) := by
        rw [min_eq_right]
        rw [← hcsn]
        have h3 := hcast _ _ h2
        push_cast at h3 ⊢
        omega
      simp only [hf, hmin]

/-- C5: for every `total_pages` and every positive `chunk_size`, the
orchestrator's chunk list partitions `[0, total_pages)`: every range is
nonempty and within bounds; consecutive ranges are contiguous and every
range with a successor spans exactly `chunk_size` pages (only the last may
be shorter); the ranges are pairwise disjoint and ascending; every page
index is covered; the first range starts at 0 and the last ends at
`total_pages` (and the list is empty for an empty document). -/
theorem orchestrator_chunks_partition (tp : Nat) (cs : Int) (hcs : 1 ≤ cs) :
    ∃ L : List (Int × Int), orchestrator_chunks (some cs) tp = some L ∧
      (∀ p ∈ L, p.1 < p.2 ∧ p.2 ≤ (tp : Int)) ∧
      (∀ i : Nat, ∀ p q : Int × Int, L[i]? = some p → L[i + 1]? = some q →
        p.2 = q.1 ∧ p.2 - p.1 = cs) ∧
      List.Pairwise (fun p q => p.2 ≤ q.1) L ∧
      (∀ x : Int, 0 ≤ x → x < (tp : Int) → ∃ p ∈ L, p.1 ≤ x ∧ x < p.2) ∧
      (tp = 0 → L = []) ∧
      (0 < tp → L[0]?.map Prod.fst = some 0 ∧
        L[L.length - 1]?.map Prod.snd = some (tp : Int)) := by
  have hn1 : 1 ≤ cs.toNat := by omega
  have hcsn : ((cs.toNat : ℕ) : Int) = cs := by omega
  obtain ⟨hub, hlb⟩ := chunk_arith tp cs.toNat hn1
  rw [Nat.mul_comm] at hub hlb
  exact ⟨_, orchestrator_chunks_eq_chunkList tp cs hcs,
    chunk_list_spec tp cs.toNat _ hn1 hub hlb cs hcsn⟩

theorem orchestrator_chunks_partition_witness :
    (1 : Int) ≤ 5 ∧
      (∃ L : List (Int × Int), orchestrator_chunks (some 5) 12 = some L ∧
        (∀ p ∈ L, p.1 < p.2 ∧ p.2 ≤ (12 : Int)) ∧
        (∀ i : Nat, ∀ p q : Int × Int, L[i]? = some p → L[i + 1]? = some q →
          p.2 = q.1 ∧ p.2 - p.1 = 5) ∧
        List.Pairwise (fun p q => p.2 ≤ q.1) L ∧
        (∀ x : Int, 0 ≤ x → x < (12 : Int) → ∃ p ∈ L, p.1 ≤ x ∧ x < p.2) ∧
        ((12 : ℕ) = 0 → L = []) ∧
        (0 < (12 : ℕ) → L[0]?.map Prod.fst = some 0 ∧
          L[L.length - 1]?.map Prod.snd = some (12 : Int))) :=
  ⟨by decide, orchestrator_chunks_partition 12 5 (by decide)⟩

/-! ## Claim C8: the `chunk_size` fallback -/

/-- C8 counterexample: a present `chunk_size` of `0` is NOT replaced by the
default 5 — `range(0, total_pages, 0)` raises `ValueError` and the
orchestration aborts (`none`), unlike a missing `chunk_size`, which does
fall back to 5 and yields the normal partition. -/
theorem chunk_size_zero_aborts :
    orchestrator_chunks (some 0) 12 = none ∧
      orchestrator_chunks none 12 = some [(0, 5), (5, 10), (10, 12)] := by
  constructor
  · rfl
  · decide

/-- C8 (amended): a missing `chunk_size` falls back to the default 5 and the
orchestration completes normally; a present non-positive value is not
defaulted: `0` aborts the whole orchestration with an error, and a negative
value yields an empty chunk list. -/
theorem chunk_size_default_behaviour (tp : Nat) :
    orchestrator_chunks none tp = orchestrator_chunks (some 5) tp ∧
      (∃ L, orchestrator_chunks none tp = some L) ∧
      orchestrator_chunks (some 0) tp = none ∧
      (∀ cs : Int, cs < 0 → orchestrator_chunks (some cs) tp = some []) := by
  have h5 : orchestrator_chunks none tp = orchestrator_chunks (some 5) tp := rfl
  refine ⟨h5, ?_, rfl, ?_⟩
  · rw [h5, orchestrator_chunks_pos tp 5 (by norm_num)]
    exact ⟨_, rfl⟩
  · intro cs hneg
    rw [orchestrator_chunks]
    simp only [Option.getD_some]
    rw [pyRangeFromZero, if_neg (by omega), if_pos hneg]
    rfl

theorem chunk_size_default_behaviour_witness :
    ((-3 : Int) < 0) ∧ orchestrator_chunks (some (-3)) 12 = some [] :=
  ⟨by decide, (chunk_size_default_behaviour 12).2.2.2 (-3) (by decide)⟩

/-! ## Aggregation (`combine_results` in `function_app.py`) -/

/-- One per-page dictionary of a chunk result, restricted to the fields the
aggregator reads, plus the page text payload.  Scores arrive as numbers in
JSON and are modelled as rationals. -/
structure Page where
  page_number : Nat
  text : List Char
  suspicious : Bool
  suspicion_score : ℚ
  suspicion_reasons : List String
deriving DecidableEq

/-- The dictionary returned by `process_pdf_chunk` for one chunk.  Python's
metadata dict is modelled as an association list (`len` = number of
keys). -/
structure ChunkResult where
  total_pages : Nat
  processed_pages : Nat
  extracted_content : List Page
  document_metadata : List (String × String)
deriving DecidableEq

/-- The `document_analysis` dictionary.  `all_suspicion_reasons` is a Python
`set` and is modelled as a `Finset` (the final `list(...)` conversion order
is interpreter-defined). -/
structure DocumentAnalysis where
  suspicious_pages : Nat
  average_suspicion_score : ℚ
  overall_suspicious : Bool
  all_suspicion_reasons : Finset String
  max_suspicion_score : ℚ
deriving DecidableEq

structure DocumentResult where
  total_pages : Nat
  processed_pages : Nat
  extracted_content : List Page
  document_metadata : List (String × String)
  document_analysis : DocumentAnalysis
deriving DecidableEq

/-- The body of the inner `for page in result['extracted_content']` loop:
count suspicious pages, accumulate the running total score (second
component), track the maximum score, and union non-empty reason lists. -/
def pageStep (a : DocumentAnalysis × ℚ) (page : Page) : DocumentAnalysis × ℚ :=
  (⟨a.1.suspicious_pages + (if page.suspicious then 1 else 0),
    a.1.average_suspicion_score,
    a.1.overall_suspicious,
    if page.suspicion_reasons ≠ [] then
      a.1.all_suspicion_reasons ∪ page.suspicion_reasons.toFinset
    else a.1.all_suspicion_reasons,
    max a.1.max_suspicion_score page.suspicion_score⟩,
   a.2 + page.suspicion_score)

/-- The body of the outer `for result in results` loop of
`combine_results`. -/
def chunkStep (acc : DocumentResult × ℚ) (r : ChunkResult) : DocumentResult × ℚ :=
  let pa := r.extracted_content.foldl pageStep (acc.1.document_analysis, acc.2)
  (⟨max acc.1.total_pages r.total_pages,
    acc.1.processed_pages + r.processed_pages,
    acc.1.extracted_content ++ r.extracted_content,
    if acc.1.document_metadata.length < r.document_metadata.length then r.document_metadata
    else acc.1.document_metadata,
    pa.1⟩, pa.2)

/-- Embedding of `combine_results`: fold the loop over all chunk results,
sort the concatenated page list ascending by page number (Python's stable
`list.sort(key=...)`), then, when any page was processed, fill in the
rounded average score and the overall verdict. -/
def combine_results (results : List ChunkResult) : DocumentResult :=
  let acc := results.foldl chunkStep (⟨0, 0, [], [], ⟨0, 0, false, ∅, 0⟩⟩, 0)
  let c := acc.1
  let sorted := c.extracted_content.mergeSort
    (fun a b => decide (a.page_number ≤ b.page_number))
  if 0 < c.processed_pages then
    ⟨c.total_pages, c.processed_pages, sorted, c.document_metadata,
      ⟨c.document_analysis.suspicious_pages,
        roundQ2 (acc.2 / (c.processed_pages : ℚ)),
        decide ((1 : ℚ) / 5 <
            (c.document_analysis.suspicious_pages : ℚ) / (c.processed_pages : ℚ)) ||
          decide ((3 : ℚ) < roundQ2 (acc.2 / (c.processed_pages : ℚ))) ||
          decide ((7 : ℚ) < c.document_analysis.max_suspicion_score),
        c.document_analysis.all_suspicion_reasons,
        c.document_analysis.max_suspicion_score⟩⟩
  else
    ⟨c.total_pages, c.processed_pages, sorted, c.document_metadata, c.document_analysis⟩

/-- All pages of all chunk results, in arrival order. -/
def allPages (results : List ChunkResult) : List Page :=
  (results.map ChunkResult.extracted_content).flatten

theorem foldl_pageStep (pages : List Page) (a : DocumentAnalysis × ℚ) :
    (pages.foldl pageStep a).2 = a.2 + (pages.map Page.suspicion_score).sum ∧
    (pages.foldl pageStep a).1.suspicious_pages =
      a.1.suspicious_pages + (pages.filter Page.suspicious).length ∧
    (pages.foldl pageStep a).1.average_suspicion_score = a.1.average_suspicion_score ∧
    (pages.foldl pageStep a).1.overall_suspicious = a.1.overall_suspicious ∧
    (pages.foldl pageStep a).1.max_suspicion_score =
      pages.foldl (fun m p => max m p.suspicion_score) a.1.max_suspicion_score := by
  induction pages generalizing a with
  | nil => simp
  | cons p ps ih =>
    obtain ⟨ih1, ih2, ih3, ih4, ih5⟩ := ih (pageStep a p)
    simp only [List.foldl_cons, List.map_cons, List.sum_cons, List.filter_cons]
    refine ⟨?_, ?_, ?_, ?_, ?_⟩
    · rw [ih1]
      simp only [pageStep]
      ring
    · rw [ih2]
      simp only [pageStep]
      by_cases hs : p.suspicious <;> simp [hs] <;> omega
    · rw [ih3]
      rfl
    · rw [ih4]
      rfl
    · rw [ih5]
      rfl

theorem foldl_chunkStep (results : List ChunkResult) (acc : DocumentResult × ℚ) :
    (results.foldl chunkStep acc).2 =
      acc.2 + ((allPages results).map Page.suspicion_score).sum ∧
    (results.foldl chunkStep acc).1.processed_pages =
      acc.1.processed_pages + (results.map ChunkResult.processed_pages).sum ∧
    (results.foldl chunkStep acc).1.extracted_content =
      acc.1.extracted_content ++ allPages results ∧
    (results.foldl chunkStep acc).1.document_analysis.average_suspicion_score =
      acc.1.document_analysis.average_suspicion_score ∧
    (results.foldl chunkStep acc).1.document_analysis.overall_suspicious =
      acc.1.document_analysis.overall_suspicious ∧
    (results.foldl chunkStep acc).1.document_analysis.suspicious_pages =
      acc.1.document_analysis.suspicious_pages +
        ((allPages results).filter Page.suspicious).length ∧
    (results.foldl chunkStep acc).1.document_analysis.max_suspicion_score =
      (allPages results).foldl (fun m p => max m p.suspicion_score)
        acc.1.document_analysis.max_suspicion_score := by
  induction results generalizing acc with
  | nil => simp [allPages]
  | cons r rs ih =>
    obtain ⟨ih1, ih2, ih3, ih4, ih5, ih6, ih7⟩ := ih (chunkStep acc r)
    obtain ⟨hp1, hp2, hp3, hp4, hp5⟩ :=
      foldl_pageStep r.extracted_content (acc.1.document_analysis, acc.2)
    simp only [] at hp1 hp2 hp3 hp4 hp5
    have hc1 : (chunkStep acc r).1.processed_pages =
        acc.1.processed_pages + r.processed_pages := rfl
    have hc2 : (chunkStep acc r).1.extracted_content =
        acc.1.extracted_content ++ r.extracted_content := rfl
    have hc3 : (chunkStep acc r).1.document_analysis =
        (r.extracted_content.foldl pageStep (acc.1.document_analysis, acc.2)).1 := rfl
    have hc4 : (chunkStep acc r).2 =
        (r.extracted_content.foldl pageStep (acc.1.document_analysis, acc.2)).2 := rfl
    have hall : allPages (r :: rs) = r.extracted_content ++ allPages rs := by
      simp [allPages]
    simp only [List.foldl_cons, hall, List.map_cons, List.sum_cons, List.map_append,
      List.sum_append, List.filter_append, List.length_append, List.foldl_append]
    refine ⟨?_, ?_, ?_, ?_, ?_, ?_, ?_⟩
    · rw [ih1, hc4, hp1]
      ring
    · rw [ih2, hc1]
      omega
    · rw [ih3, hc2, List.append_assoc]
    · rw [ih4, hc3, hp3]
    · rw [ih5, hc3, hp4]
    · rw [ih6, hc3, hp2]
      omega
    · rw [ih7, hc3, hp5]

/-- The accumulator after the `for result in results` loop of
`combine_results`, starting from the initial `combined` dictionary; the
second component is the running `total_suspicion_score`. -/
def combineFold (results : List ChunkResult) : DocumentResult × ℚ :=
  results.foldl chunkStep (⟨0, 0, [], [], ⟨0, 0, false, ∅, 0⟩⟩, 0)

theorem combine_results_stable_fields (results : List ChunkResult) :
    (combine_results results).processed_pages = (combineFold results).1.processed_pages ∧
    (combine_results results).document_analysis.max_suspicion_score =
      (combineFold results).1.document_analysis.max_suspicion_score ∧
    (combine_results results).document_analysis.suspicious_pages =
      (combineFold results).1.document_analysis.suspicious_pages ∧
    (combine_results results).extracted_content =
      ((combineFold results).1.extracted_content).mergeSort
        (fun a b => decide (a.page_number ≤ b.page_number)) := by
  simp only [combine_results]
  split
  · exact ⟨rfl, rfl, rfl, rfl⟩
  · exact ⟨rfl, rfl, rfl, rfl⟩

theorem combine_results_pos_analysis (results : List ChunkResult)
    (hpos : 0 < (combineFold results).1.processed_pages) :
    (combine_results results).document_analysis.average_suspicion_score =
      roundQ2 ((combineFold results).2 / ((combineFold results).1.processed_pages : ℚ)) ∧
    (combine_results results).document_analysis.overall_suspicious =
      (decide ((1 : ℚ) / 5 < ((combineFold results).1.document_analysis.suspicious_pages : ℚ) /
          ((combineFold results).1.processed_pages : ℚ)) ||
        decide ((3 : ℚ) < roundQ2 ((combineFold results).2 /
          ((combineFold results).1.processed_pages : ℚ))) ||
        decide ((7 : ℚ) < (combineFold results).1.document_analysis.max_suspicion_score)) := by
  simp only [combineFold] at hpos
  simp only [combine_results]
  rw [if_pos hpos]
  exact ⟨rfl, rfl⟩

theorem combine_results_zero_analysis (results : List ChunkResult)
    (hz : (combineFold results).1.processed_pages = 0) :
    (combine_results results).document_analysis =
      (combineFold results).1.document_analysis := by
  simp only [combineFold] at hz
  simp only [combine_results]
  rw [if_neg (by omega)]
  rfl

/-- C3: with at least one processed page, `overall_suspicious` holds exactly
when the suspicious-page fraction exceeds `1/5`, or the average score
(the rounded quotient of the total score by `processed_pages`) exceeds `3`,
or the maximum score exceeds `7`; with no processed pages the document is
not suspicious and the average is `0`. -/
theorem combine_results_overall (results : List ChunkResult) :
    (0 < (combine_results results).processed_pages →
      ((combine_results results).document_analysis.overall_suspicious = true ↔
        ((1 : ℚ) / 5 < ((combine_results results).document_analysis.suspicious_pages : ℚ) /
            ((combine_results results).processed_pages : ℚ) ∨
          (3 : ℚ) < (combine_results results).document_analysis.average_suspicion_score ∨
          (7 : ℚ) < (combine_results results).document_analysis.max_suspicion_score)) ∧
      (combine_results results).document_analysis.average_suspicion_score =
        roundQ2 (((allPages results).map Page.suspicion_score).sum /
          ((combine_results results).processed_pages : ℚ))) ∧
    ((combine_results results).processed_pages = 0 →
      (combine_results results).document_analysis.overall_suspicious = false ∧
      (combine_results results).document_analysis.average_suspicion_score = 0) := by
  obtain ⟨hsf1, hsf2, hsf3, hsf4⟩ := combine_results_stable_fields results
  obtain ⟨h1, h2, h3, h4, h5, h6, h7⟩ :=
    foldl_chunkStep results (⟨0, 0, [], [], ⟨0, 0, false, ∅, 0⟩⟩, 0)
  have hsum : (combineFold results).2 = ((allPages results).map Page.suspicion_score).sum := by
    rw [combineFold, h1]
    norm_num
  constructor
  · intro hpos
    rw [hsf1] at hpos
    obtain ⟨havg, hover⟩ := combine_results_pos_analysis results hpos
    constructor
    · rw [hover, havg, hsf1, hsf3, hsf2]
      rw [Bool.or_eq_true, Bool.or_eq_true, decide_eq_true_iff, decide_eq_true_iff,
        decide_eq_true_iff]
      rw [hsum]
      tauto
    · rw [havg, hsum, hsf1]
  · intro hz
    rw [hsf1] at hz
    have hda := combine_results_zero_analysis results hz
    rw [hda]
    constructor
    · rw [combineFold, h5]
    · rw [combineFold, h4]

/-- Sample chunks used to instantiate the aggregator theorems. -/
def sampleChunk1 : ChunkResult :=
  ⟨12, 2, [⟨0, [], false, 1, []⟩, ⟨1, [], true, 6, []⟩], []⟩

def sampleChunk2 : ChunkResult := ⟨12, 1, [⟨2, [], false, 2, []⟩], []⟩

theorem combine_results_overall_witness :
    0 < (combine_results [sampleChunk1, sampleChunk2]).processed_pages ∧
      (((combine_results [sampleChunk1, sampleChunk2]).document_analysis.overall_suspicious
            = true ↔
        ((1 : ℚ) / 5 <
            ((combine_results
                [sampleChunk1, sampleChunk2]).document_analysis.suspicious_pages : ℚ) /
              ((combine_results [sampleChunk1, sampleChunk2]).processed_pages : ℚ) ∨
          (3 : ℚ) <
            (combine_results
              [sampleChunk1, sampleChunk2]).document_analysis.average_suspicion_score ∨
          (7 : ℚ) <
            (combine_results
              [sampleChunk1, sampleChunk2]).document_analysis.max_suspicion_score)) ∧
      (combine_results [sampleChunk1, sampleChunk2]).document_analysis.average_suspicion_score
          =
        roundQ2 (((allPages [sampleChunk1, sampleChunk2]).map Page.suspicion_score).sum /
          ((combine_results [sampleChunk1, sampleChunk2]).processed_pages : ℚ))) :=
  ⟨by decide, (combine_results_overall [sampleChunk1, sampleChunk2]).1 (by decide)⟩

theorem combineFold_content (rs : List ChunkResult) :
    (combineFold rs).1.extracted_content = allPages rs := by
  have h := (foldl_chunkStep rs (⟨0, 0, [], [], ⟨0, 0, false, ∅, 0⟩⟩, 0)).2.2.1
  rw [combineFold, h]
  rfl

/-- C4: if all pages across all chunk results carry pairwise-distinct page
numbers, then permuting the chunk-result list does not change
`extracted_content`, and that list is sorted ascending by page number. -/
theorem combine_results_order_independent (rs1 rs2 : List ChunkResult)
    (hperm : rs1.Perm rs2)
    (hnodup : ((allPages rs1).map Page.page_number).Nodup) :
    (combine_results rs1).extracted_content = (combine_results rs2).extracted_content ∧
      List.Pairwise (fun a b => a.page_number ≤ b.page_number)
        (combine_results rs1).extracted_content := by
  have hc1 := (combine_results_stable_fields rs1).2.2.2
  have hc2 := (combine_results_stable_fields rs2).2.2.2
  rw [combineFold_content] at hc1 hc2
  set le : Page → Page → Bool := fun a b => decide (a.page_number ≤ b.page_number) with hle
  have htrans : ∀ a b c : Page, le a b → le b c → le a c := by
    intro a b c hab hbc
    simp only [hle, decide_eq_true_iff] at hab hbc ⊢
    omega
  have htotal : ∀ a b : Page, le a b || le b a := by
    intro a b
    simp only [hle, Bool.or_eq_true, decide_eq_true_iff]
    omega
  have hpg : (allPages rs1).Perm (allPages rs2) := by
    rw [allPages, allPages]
    exact (hperm.map ChunkResult.extracted_content).flatten
  have hsorted1 := List.sorted_mergeSort htrans htotal (allPages rs1)
  have hsorted2 := List.sorted_mergeSort htrans htotal (allPages rs2)
  have hperm1 := List.mergeSort_perm (allPages rs1) le
  have hperm2 := List.mergeSort_perm (allPages rs2) le
  have hp : ((allPages rs1).mergeSort le).Perm ((allPages rs2).mergeSort le) :=
    (hperm1.trans hpg).trans hperm2.symm
  have hkey1 : (((allPages rs1).mergeSort le).map Page.page_number).Nodup :=
    ((hperm1.map Page.page_number).nodup_iff).mpr hnodup
  have hkey2 : (((allPages rs2).mergeSort le).map Page.page_number).Nodup := by
    refine ((hperm2.map Page.page_number).nodup_iff).mpr ?_
    exact ((hpg.map Page.page_number).nodup_iff).mp hnodup
  have hne1 : List.Pairwise (fun a b : Page => a.page_number ≠ b.page_number)
      ((allPages rs1).mergeSort le) := (List.pairwise_map).mp hkey1
  have hne2 : List.Pairwise (fun a b : Page => a.page_number ≠ b.page_number)
      ((allPages rs2).mergeSort le) := (List.pairwise_map).mp hkey2
  have hle1 : List.Pairwise (fun a b : Page => a.page_number ≤ b.page_number)
      ((allPages rs1).mergeSort le) := by
    refine hsorted1.imp ?_
    intro a b hab
    simpa [hle] using hab
  have hle2 : List.Pairwise (fun a b : Page => a.page_number ≤ b.page_number)
      ((allPages rs2).mergeSort le) := by
    refine hsorted2.imp ?_
    intro a b hab
    simpa [hle] using hab
  have hlt1 : List.Pairwise (fun a b : Page => a.page_number < b.page_number)
      ((allPages rs1).mergeSort le) := by
    refine (hle1.and hne1).imp ?_
    intro a b hab
    omega
  have hlt2 : List.Pairwise (fun a b : Page => a.page_number < b.page_number)
      ((allPages rs2).mergeSort le) := by
    refine (hle2.and hne2).imp ?_
    intro a b hab
    omega
  haveI : IsAntisymm Page (fun a b => a.page_number < b.page_number) :=
    ⟨fun a b h1 h2 => absurd h1 (by omega)⟩
  have heq : (allPages rs1).mergeSort le = (allPages rs2).mergeSort le :=
    List.eq_of_perm_of_sorted hp hlt1 hlt2
  rw [hc1, hc2]
  exact ⟨heq, hle1⟩

theorem combine_results_order_independent_witness :
    ([sampleChunk1, sampleChunk2] : List ChunkResult).Perm [sampleChunk2, sampleChunk1] ∧
      ((allPages [sampleChunk1, sampleChunk2]).map Page.page_number).Nodup ∧
      ((combine_results [sampleChunk1, sampleChunk2]).extracted_content =
          (combine_results [sampleChunk2, sampleChunk1]).extracted_content ∧
        List.Pairwise (fun a b => a.page_number ≤ b.page_number)
          (combine_results [sampleChunk1, sampleChunk2]).extracted_content) :=
  ⟨by decide, by decide,
    combine_results_order_independent [sampleChunk1, sampleChunk2]
      [sampleChunk2, sampleChunk1] (by decide) (by decide)⟩

/-! ## Claim C6: round-trip through the Base64 and hex detectors -/

theorem fromB64Char_toB64Char : ∀ i : Nat, i < 64 → fromB64Char (toB64Char i) = some i := by
  decide

theorem isB64Char_toB64Char : ∀ i : Nat, i < 64 → isB64Char (toB64Char i) = true := by
  decide

theorem toB64Char_ne_pad : ∀ i : Nat, i < 64 → toB64Char i ≠ '=' := by
  decide

theorem fromHexChar_toHexChar : ∀ i : Nat, i < 16 → fromHexChar (toHexChar i) = some i := by
  decide

theorem isHexChar_toHexChar : ∀ i : Nat, i < 16 → isHexChar (toHexChar i) = true := by
  decide

/-- Decoding inverts encoding for genuine byte sequences (Base64). -/
theorem b64decode_b64encode (bs : List Nat) (h : ∀ b ∈ bs, b < 256) :
    b64decode (b64encode bs) = some bs := by
  induction bs using b64encode.induct with
  | case1 => rfl
  | case2 b1 =>
    have hb1 : b1 < 256 := h b1 (by simp)
    have h1 : b1 / 4 < 64 := by omega
    have h2 : b1 % 4 * 16 < 64 := by omega
    simp only [b64encode, b64decode]
    rw [if_neg (toB64Char_ne_pad _ h1)]
    simp only [fromB64Char_toB64Char _ h1, fromB64Char_toB64Char _ h2]
    simp only [if_true]
    have harith : b1 / 4 * 4 + b1 % 4 * 16 / 16 = b1 := by omega
    rw [harith]
  | case3 b1 b2 =>
    have hb1 : b1 < 256 := h b1 (by simp)
    have hb2 : b2 < 256 := h b2 (by simp)
    have h1 : b1 / 4 < 64 := by omega
    have h2 : b1 % 4 * 16 + b2 / 16 < 64 := by omega
    have h3 : b2 % 16 * 4 < 64 := by omega
    simp only [b64encode, b64decode]
    rw [if_neg (toB64Char_ne_pad _ h1)]
    simp only [fromB64Char_toB64Char _ h1, fromB64Char_toB64Char _ h2]
    rw [if_neg (toB64Char_ne_pad _ h3)]
    simp only [fromB64Char_toB64Char _ h3]
    simp only [if_true]
    have e1 : b1 / 4 * 4 + (b1 % 4 * 16 + b2 / 16) / 16 = b1 := by omega
    have e2 : (b1 % 4 * 16 + b2 / 16) % 16 * 16 + b2 % 16 * 4 / 4 = b2 := by omega
    rw [e1, e2]
  | case4 b1 b2 b3 rest ih =>
    have hb1 : b1 < 256 := h b1 (by simp)
    have hb2 : b2 < 256 := h b2 (by simp)
    have hb3 : b3 < 256 := h b3 (by simp)
    have hrest : ∀ b ∈ rest, b < 256 := fun b hb => h b (by simp [hb])
    have h1 : b1 / 4 < 64 := by omega
    have h2 : b1 % 4 * 16 + b2 / 16 < 64 := by omega
    have h3 : b2 % 16 * 4 + b3 / 64 < 64 := by omega
    have h4 : b3 % 64 < 64 := by omega
    simp only [b64encode, b64decode]
    rw [if_neg (toB64Char_ne_pad _ h1)]
    simp only [fromB64Char_toB64Char _ h1, fromB64Char_toB64Char _ h2]
    rw [if_neg (toB64Char_ne_pad _ h3)]
    simp only [fromB64Char_toB64Char _ h3]
    rw [if_neg (toB64Char_ne_pad _ h4)]
    simp only [fromB64Char_toB64Char _ h4, ih hrest]
    have e1 : b1 / 4 * 4 + (b1 % 4 * 16 + b2 / 16) / 16 = b1 := by omega
    have e2 : (b1 % 4 * 16 + b2 / 16) % 16 * 16 + (b2 % 16 * 4 + b3 / 64) / 4 = b2 := by
      omega
    have e3 : (b2 % 16 * 4 + b3 / 64) % 4 * 64 + b3 % 64 = b3 := by omega
    rw [e1, e2, e3]

/-- Decoding inverts encoding for genuine byte sequences (hex). -/
theorem hexDecode_hexEncode (bs : List Nat) (h : ∀ b ∈ bs, b < 256) :
    hexDecode (hexEncode bs) = some bs := by
  induction bs with
  | nil => rfl
  | cons b rest ih =>
    have hb : b < 256 := h b (by simp)
    have hrest : ∀ x ∈ rest, x < 256 := fun x hx => h x (by simp [hx])
    have h1 : b / 16 < 16 := by omega
    have h2 : b % 16 < 16 := by omega
    have hcons : hexEncode (b :: rest) =
        toHexChar (b / 16) :: toHexChar (b % 16) :: hexEncode rest := by
      simp [hexEncode]
    rw [hcons, hexDecode]
    simp only [fromHexChar_toHexChar _ h1, fromHexChar_toHexChar _ h2, ih hrest]
    have e1 : b / 16 * 16 + b % 16 = b := by omega
    rw [e1]

theorem b64encode_length_mod (bs : List Nat) : (b64encode bs).length % 4 = 0 := by
  induction bs using b64encode.induct with
  | case1 => rfl
  | case2 b1 => simp [b64encode]
  | case3 b1 b2 => simp [b64encode]
  | case4 b1 b2 b3 rest ih =>
    simp only [b64encode, List.length_cons]
    omega

/-- A Base64 encoding splits into a run of alphabet characters followed by
at most two padding signs. -/
theorem b64encode_split (bs : List Nat) (h : ∀ b ∈ bs, b < 256) :
    ∃ d k, b64encode bs = d ++ List.replicate k '=' ∧ k ≤ 2 ∧
      (∀ c ∈ d, isB64Char c = true) := by
  induction bs using b64encode.induct with
  | case1 => exact ⟨[], 0, rfl, by omega, by simp⟩
  | case2 b1 =>
    have hb1 : b1 < 256 := h b1 (by simp)
    refine ⟨[toB64Char (b1 / 4), toB64Char (b1 % 4 * 16)], 2, rfl, by omega, ?_⟩
    intro c hc
    simp only [List.mem_cons, List.not_mem_nil, or_false] at hc
    rcases hc with rfl | rfl
    · exact isB64Char_toB64Char _ (by omega)
    · exact isB64Char_toB64Char _ (by omega)
  | case3 b1 b2 =>
    have hb1 : b1 < 256 := h b1 (by simp)
    have hb2 : b2 < 256 := h b2 (by simp)
    refine ⟨[toB64Char (b1 / 4), toB64Char (b1 % 4 * 16 + b2 / 16),
      toB64Char (b2 % 16 * 4)], 1, rfl, by omega, ?_⟩
    intro c hc
    simp only [List.mem_cons, List.not_mem_nil, or_false] at hc
    rcases hc with rfl | rfl | rfl
    · exact isB64Char_toB64Char _ (by omega)
    · exact isB64Char_toB64Char _ (by omega)
    · exact isB64Char_toB64Char _ (by omega)
  | case4 b1 b2 b3 rest ih =>
    have hb1 : b1 < 256 := h b1 (by simp)
    have hb2 : b2 < 256 := h b2 (by simp)
    have hb3 : b3 < 256 := h b3 (by simp)
    obtain ⟨d, k, heq, hk, hchars⟩ := ih (fun b hb => h b (by simp [hb]))
    refine ⟨toB64Char (b1 / 4) :: toB64Char (b1 % 4 * 16 + b2 / 16) ::
      toB64Char (b2 % 16 * 4 + b3 / 64) :: toB64Char (b3 % 64) :: d, k, ?_, hk, ?_⟩
    · simp only [b64encode, heq]
      rfl
    · intro c hc
      simp only [List.mem_cons] at hc
      rcases hc with rfl | rfl | rfl | rfl | hc
      · exact isB64Char_toB64Char _ (by omega)
      · exact isB64Char_toB64Char _ (by omega)
      · exact isB64Char_toB64Char _ (by omega)
      · exact isB64Char_toB64Char _ (by omega)
      · exact hchars c hc

theorem isB64Char_ne_pad (c : Char) (hc : isB64Char c = true) : (c == '=') = false := by
  rcases hbe : c == '=' with _ | _
  · rfl
  · have : c = '=' := by
      exact beq_iff_eq.mp hbe
    rw [this] at hc
    exact absurd hc (by decide)

/-- `rstrip('=')` recovers the alphabet run of a `run ++ pads` split. -/
theorem stripTrailingEq_append (d : List Char) (k : Nat)
    (hd : ∀ c ∈ d, isB64Char c = true) :
    stripTrailingEq (d ++ List.replicate k '=') = d := by
  rw [stripTrailingEq, List.reverse_append, List.reverse_replicate]
  have hall : ∀ a ∈ List.replicate k '=', (a == '=') = true := by
    intro a ha
    rw [List.eq_of_mem_replicate ha]
    decide
  rw [List.dropWhile_append_of_pos hall]
  rcases hrev : d.reverse with _ | ⟨c, cs⟩
  · have : d = [] := by simpa using congrArg List.reverse hrev
    simp [this]
  · have hcmem : c ∈ d := by
      have h2 : c ∈ d.reverse := by simp [hrev]
      simpa using h2
    rw [List.dropWhile_cons_of_neg (by simp [isB64Char_ne_pad c (hd c hcmem)])]
    rw [← hrev, List.reverse_reverse]

theorem takeWhile_all_dropWhile_nil {α} (p : α → Bool) (l : List α)
    (h : ∀ c ∈ l, p c = true) : l.takeWhile p = l ∧ l.dropWhile p = [] := by
  induction l with
  | nil => simp
  | cons c cs ih =>
    have hc : p c = true := h c (by simp)
    have ihh := ih (fun x hx => h x (by simp [hx]))
    rw [List.takeWhile_cons_of_pos hc, List.dropWhile_cons_of_pos hc]
    exact ⟨by rw [ihh.1], ihh.2⟩

theorem takeWhile_isB64_replicate (k : Nat) :
    (List.replicate k '=').takeWhile isB64Char = [] := by
  cases k
  · rfl
  · rw [List.replicate_succ, List.takeWhile_cons_of_neg (by decide)]

theorem dropWhile_isB64_replicate (k : Nat) :
    (List.replicate k '=').dropWhile isB64Char = List.replicate k '=' := by
  cases k
  · rfl
  · rw [List.replicate_succ, List.dropWhile_cons_of_neg (by decide)]

/-- On a text that is exactly one long alphabet run followed by up to three
padding signs, the Base64 scan finds exactly that one candidate. -/
theorem b64Candidates_single (d : List Char) (k : Nat)
    (hd : ∀ c ∈ d, isB64Char c = true) (hlen : 16 ≤ d.length) (hk : k ≤ 3) :
    b64Candidates (d ++ List.replicate k '=') = [d ++ List.replicate k '='] := by
  rcases d with _ | ⟨c, cs⟩
  · simp at hlen
  have hc : isB64Char c = true := hd c (by simp)
  have htake : ((c :: cs) ++ List.replicate k '=').takeWhile isB64Char = c :: cs := by
    rw [List.takeWhile_append_of_pos hd, takeWhile_isB64_replicate]
    simp
  have hdrop : ((c :: cs) ++ List.replicate k '=').dropWhile isB64Char =
      List.replicate k '=' := by
    rw [List.dropWhile_append_of_pos hd, dropWhile_isB64_replicate]
  have hpads : ((List.replicate k '=').takeWhile (fun d => d == '=')).take 3 =
      List.replicate k '=' := by
    rw [(takeWhile_all_dropWhile_nil _ _ (by
      intro x hx
      rw [List.eq_of_mem_replicate hx]
      decide)).1]
    rw [List.take_replicate]
    congr 1
    omega
  rw [show (c :: cs) ++ List.replicate k '=' = c :: (cs ++ List.replicate k '=') from rfl]
  rw [b64Candidates]
  rw [dif_pos hc]
  simp only [← List.cons_append, htake, hdrop, hpads]
  rw [if_pos (by simpa using hlen)]
  rw [List.length_replicate]
  rw [show (List.replicate k '=').drop k = [] from by
    rw [List.drop_replicate]
    simp]
  rw [show b64Candidates [] = [] from by rw [b64Candidates]]

/-- On a text that is exactly one long hex-digit run, the hex scan finds
exactly that one candidate. -/
theorem hexCandidates_single (d : List Char)
    (hd : ∀ c ∈ d, isHexChar c = true) (hlen : 16 ≤ d.length) :
    hexCandidates d = [d] := by
  rcases d with _ | ⟨c, cs⟩
  · simp at hlen
  have hc : isHexChar c = true := hd c (by simp)
  obtain ⟨htake, hdrop⟩ := takeWhile_all_dropWhile_nil isHexChar (c :: cs) hd
  rw [hexCandidates]
  rw [dif_pos hc]
  simp only [htake, hdrop]
  rw [if_pos (by simpa using hlen)]
  rw [show hexCandidates [] = [] from by rw [hexCandidates]]

theorem hexEncode_chars (bs : List Nat) (h : ∀ b ∈ bs, b < 256) :
    ∀ c ∈ hexEncode bs, isHexChar c = true := by
  intro c hc
  rw [hexEncode] at hc
  rcases List.mem_flatten.mp hc with ⟨l, hl, hcl⟩
  rcases List.mem_map.mp hl with ⟨b, hb, rfl⟩
  have hblt := h b hb
  simp only [List.mem_cons, List.not_mem_nil, or_false] at hcl
  rcases hcl with rfl | rfl
  · exact isHexChar_toHexChar _ (by omega)
  · exact isHexChar_toHexChar _ (by omega)

theorem hexEncode_length (bs : List Nat) : (hexEncode bs).length = 2 * bs.length := by
  induction bs with
  | nil => rfl
  | cons b rest ih =>
    have hcons : hexEncode (b :: rest) =
        toHexChar (b / 16) :: toHexChar (b % 16) :: hexEncode rest := by
      simp [hexEncode]
    rw [hcons, List.length_cons, List.length_cons, ih, List.length_cons]
    omega

/-- C6: feeding the Base64 (resp. hex) encoding of a readable UTF-8 byte
sequence through the respective detector yields exactly one finding, of the
readable kind, whose `sample_decoded` is the decoded string truncated by
the 50-character rule (`s` itself when `len(s) ≤ 50`, else the first 50
characters followed by `...`). -/
theorem detect_roundtrip (bs : List Nat) (s : List Char)
    (hbytes : ∀ b ∈ bs, b < 256)
    (hutf : utf8decode bs = some s)
    (hread : is_readable_text s = true)
    (hb64len : 16 ≤ (stripTrailingEq (b64encode bs)).length)
    (hhexlen : 16 ≤ (hexEncode bs).length) :
    detect_base64 (b64encode bs) =
      [⟨"base64", b64encode bs, some (truncate50 s), none, 0.9, none⟩] ∧
    detect_hex (hexEncode bs) =
      [⟨"hexadecimal", hexEncode bs, some (truncate50 s), none, 0.85, none⟩] ∧
    (s.length ≤ 50 → truncate50 s = s) ∧
    (50 < s.length → truncate50 s = s.take 50 ++ ['.', '.', '.']) := by
  obtain ⟨d, k, hsplit, hk2, hchars⟩ := b64encode_split bs hbytes
  have hstrip : stripTrailingEq (b64encode bs) = d := by
    rw [hsplit]
    exact stripTrailingEq_append d k hchars
  have hdlen : 16 ≤ d.length := by
    rw [hstrip] at hb64len
    exact hb64len
  have hpad : padB64 (b64encode bs) = b64encode bs := by
    rw [padB64, b64encode_length_mod]
    simp
  have hproc : processB64Candidate (b64encode bs) =
      [⟨"base64", b64encode bs, some (truncate50 s), none, 0.9, none⟩] := by
    rw [processB64Candidate, hstrip, if_neg (by omega), hpad,
      b64decode_b64encode bs hbytes]
    simp only [hutf, hread, if_true]
  have hhproc : processHexCandidate (hexEncode bs) =
      [⟨"hexadecimal", hexEncode bs, some (truncate50 s), none, 0.85, none⟩] := by
    rw [processHexCandidate, if_neg (by rw [hexEncode_length]; omega),
      hexDecode_hexEncode bs hbytes]
    simp only [hutf, hread, if_true]
  refine ⟨?_, ?_, ?_, ?_⟩
  · rw [detect_base64, hsplit, b64Candidates_single d k hchars hdlen (by omega), ← hsplit]
    simp [hproc]
  · rw [detect_hex, hexCandidates_single (hexEncode bs) (hexEncode_chars bs hbytes) hhexlen]
    simp [hhproc]
  · intro hle
    rw [truncate50, if_neg (by omega), List.take_of_length_le hle]
    simp
  · intro hgt
    rw [truncate50, if_pos hgt]

def sampleText : List Char := "Hello, formal world.".toList

def sampleBytes : List Nat := sampleText.map Char.toNat

theorem detect_roundtrip_witness :
    (∀ b ∈ sampleBytes, b < 256) ∧
    utf8decode sampleBytes = some sampleText ∧
    is_readable_text sampleText = true ∧
    16 ≤ (stripTrailingEq (b64encode sampleBytes)).length ∧
    16 ≤ (hexEncode sampleBytes).length ∧
    (detect_base64 (b64encode sampleBytes) =
        [⟨"base64", b64encode sampleBytes, some (truncate50 sampleText), none, 0.9, none⟩] ∧
      detect_hex (hexEncode sampleBytes) =
        [⟨"hexadecimal", hexEncode sampleBytes, some (truncate50 sampleText), none,
          0.85, none⟩] ∧
      (sampleText.length ≤ 50 → truncate50 sampleText = sampleText) ∧
      (50 < sampleText.length →
        truncate50 sampleText = sampleText.take 50 ++ ['.', '.', '.'])) :=
  ⟨by decide, by decide, by decide, by decide, by decide,
    detect_roundtrip sampleBytes sampleText (by decide) (by decide) (by decide) (by decide)
      (by decide)⟩

/-! ## Claim C10: totality and silent discarding of decode failures -/

/-- C10: each detector maps a per-candidate processor over its candidate
list and flattens, so it returns a (possibly empty) finding list for every
input; a candidate whose decode fails (invalid Base64, invalid or
odd-length hex, or — for the URL detector — non-UTF-8 bytes) is silently
discarded and contributes no finding and no error. -/
theorem detectors_silently_discard_failures :
    (∀ cand : List Char, b64decode (padB64 cand) = none → processB64Candidate cand = []) ∧
    (∀ cand : List Char, hexDecode cand = none → processHexCandidate cand = []) ∧
    (∀ cand : List Char, cand.length % 2 ≠ 0 → processHexCandidate cand = []) ∧
    (∀ cand : List Char, hexDecode (cand.filter (fun c => c != '%')) = none →
      processUrlCandidate cand = []) ∧
    (∀ cand : List Char, ∀ ds : List Nat,
      hexDecode (cand.filter (fun c => c != '%')) = some ds → utf8decode ds = none →
      processUrlCandidate cand = []) ∧
    (∀ text : List Char,
      detect_base64 text = ((b64Candidates text).map processB64Candidate).flatten ∧
      detect_hex text = ((hexCandidates text).map processHexCandidate).flatten ∧
      detect_url_encoding text = ((urlCandidates text).map processUrlCandidate).flatten) := by
  refine ⟨?_, ?_, ?_, ?_, ?_, fun text => ⟨rfl, rfl, rfl⟩⟩
  · intro cand hdec
    rw [processB64Candidate]
    split
    · rfl
    · simp only [hdec]
  · intro cand hdec
    rw [processHexCandidate]
    split
    · rfl
    · simp only [hdec]
  · intro cand hodd
    rw [processHexCandidate, if_pos hodd]
  · intro cand hdec
    rw [processUrlCandidate.eq_def]
    simp only [hdec]
  · intro cand ds hdec hutf
    rw [processUrlCandidate.eq_def]
    simp only [hdec, hutf]

theorem detectors_silently_discard_failures_witness :
    b64decode (padB64 (List.replicate 17 'A')) = none ∧
    processB64Candidate (List.replicate 17 'A') = [] ∧
    hexDecode ['z', 'z'] = none ∧
    processHexCandidate ['z', 'z'] = [] ∧
    (['a', 'b', 'c'] : List Char).length % 2 ≠ 0 ∧
    processHexCandidate ['a', 'b', 'c'] = [] ∧
    hexDecode (("%zz%zz%zz".toList).filter (fun c => c != '%')) = none ∧
    processUrlCandidate "%zz%zz%zz".toList = [] ∧
    hexDecode (("%ff%ff%ff".toList).filter (fun c => c != '%')) = some [255, 255, 255] ∧
    utf8decode [255, 255, 255] = none ∧
    processUrlCandidate "%ff%ff%ff".toList = [] :=
  ⟨by decide,
    detectors_silently_discard_failures.1 _ (by decide),
    by decide,
    detectors_silently_discard_failures.2.1 _ (by decide),
    by decide,
    detectors_silently_discard_failures.2.2.1 _ (by decide),
    by decide,
    detectors_silently_discard_failures.2.2.2.1 _ (by decide),
    by decide,
    by decide,
    detectors_silently_discard_failures.2.2.2.2.1 _ [255, 255, 255] (by decide) (by decide)⟩
